import Mathlib

/-!
Verification of the Logos memory engine against its specification.

The Python sources are shallowly embedded: Python dicts become association
lists over `String` keys and values (`Dict` below) with Python's lookup,
assignment and `update` semantics; the Qdrant client and the embedder are
modelled by recording the calls the code would make; floating-point
similarity scores are modelled as rationals.
-/

set_option autoImplicit false
set_option maxRecDepth 100000

/-- Python `dict` with string keys and values, as an association list in
insertion order.  A real Python dict never holds duplicate keys; theorems
that depend on that carry a `Nodup` hypothesis on `dkeys`. -/
abbrev Dict : Type := List (String × String)

/-- Lookup `d[k]` (first entry whose key is `k`). -/
def dget : Dict → String → Option String
  | [], _ => none
  | p :: rest, k => if p.1 = k then some p.2 else dget rest k

/-- Python assignment `d[k] = v`: replace in place if the key exists,
otherwise append at the end (insertion order). -/
def dset : Dict → String → String → Dict
  | [], k, v => [(k, v)]
  | p :: rest, k, v => if p.1 = k then (k, v) :: rest else p :: dset rest k v

/-- Python `d.update(m)`: assign every entry of `m` into `d`, in order. -/
def dupdate (d m : Dict) : Dict :=
  m.foldl (fun acc p => dset acc p.1 p.2) d

/-- The keys of a dict, in order. -/
def dkeys (d : Dict) : List String :=
  d.map (fun p => p.1)

theorem dget_eq_none_iff (d : Dict) (k : String) :
    dget d k = none ↔ k ∉ dkeys d := by
  induction d with
  | nil => simp [dget, dkeys]
  | cons p rest ih =>
    by_cases h : p.1 = k
    · simp [dget, dkeys, h]
    · have h' : ¬(k = p.1) := fun hc => h hc.symm
      simp [dget, dkeys, h, h', ih]

theorem dget_append (d₁ d₂ : Dict) (k : String) :
    dget (d₁ ++ d₂) k = (dget d₁ k).or (dget d₂ k) := by
  induction d₁ with
  | nil => simp [dget]
  | cons p rest ih =>
    by_cases h : p.1 = k <;> simp [dget, h, ih]

theorem dget_dset_ne (d : Dict) (k v r : String) (h : r ≠ k) :
    dget (dset d k v) r = dget d r := by
  induction d with
  | nil => simp [dset, dget, Ne.symm h]
  | cons p rest ih =>
    by_cases hp : p.1 = k
    · rw [dset, if_pos hp, dget, dget, hp, if_neg (Ne.symm h), if_neg (Ne.symm h)]
    · rw [dset, if_neg hp, dget, dget]
      by_cases hpr : p.1 = r <;> simp [hpr, ih]

theorem dset_of_not_mem (d : Dict) (k v : String) (h : k ∉ dkeys d) :
    dset d k v = d ++ [(k, v)] := by
  induction d with
  | nil => simp [dset]
  | cons p rest ih =>
    simp only [dkeys, List.map_cons, List.mem_cons] at h
    push_neg at h
    rw [dset, if_neg (Ne.symm h.1), ih (by simpa [dkeys] using h.2)]
    rfl

theorem dkeys_dset_of_mem (d : Dict) (k v : String) (h : k ∈ dkeys d) :
    dkeys (dset d k v) = dkeys d := by
  induction d with
  | nil => simp [dkeys] at h
  | cons p rest ih =>
    by_cases hp : p.1 = k
    · rw [dset, if_pos hp]
      simp [dkeys, hp]
    · simp only [dkeys, List.map_cons, List.mem_cons] at h
      rcases h with h | h
      · exact absurd h.symm hp
      · have := ih (by simpa [dkeys] using h)
        rw [dset, if_neg hp]
        simpa [dkeys] using this

theorem dkeys_nodup_dset (d : Dict) (k v : String) (h : (dkeys d).Nodup) :
    (dkeys (dset d k v)).Nodup := by
  by_cases hm : k ∈ dkeys d
  · rwa [dkeys_dset_of_mem d k v hm]
  · rw [dset_of_not_mem d k v hm]
    have hk : dkeys (d ++ [(k, v)]) = dkeys d ++ [k] := by simp [dkeys]
    rw [hk, List.nodup_append]
    refine ⟨h, by simp, ?_⟩
    intro a ha hb
    simp only [List.mem_singleton] at hb
    exact hm (hb ▸ ha)

/-- The value map applied to the kept entries by a Python `update`. -/
def updVal (m : Dict) (p : String × String) : String × String :=
  (p.1, (dget m p.1).getD p.2)

theorem map_updVal_nil (d : Dict) :
    d.map (updVal []) = d := by
  induction d with
  | nil => rfl
  | cons p rest ih => simp [updVal, dget, ih]

theorem dset_map_updVal (q : String × String) (m' : Dict) :
    ∀ d : Dict, (dkeys d).Nodup → q.1 ∈ dkeys d → q.1 ∉ dkeys m' →
      (dset d q.1 q.2).map (updVal m') = d.map (updVal (q :: m')) := by
  intro d
  induction d with
  | nil => intro _ h _; simp [dkeys] at h
  | cons p rest ih =>
    intro hnd hmem hnm
    simp only [dkeys, List.map_cons, List.nodup_cons] at hnd
    by_cases hp : p.1 = q.1
    · have hq_not_rest : q.1 ∉ dkeys rest := by
        simpa [dkeys, hp] using hnd.1
      rw [dset, if_pos hp]
      simp only [List.map_cons]
      congr 1
      · simp [updVal, dget, (dget_eq_none_iff m' q.1).2 hnm, hp]
      · apply List.map_congr_left
        intro r hr
        have hr_ne : ¬(q.1 = r.1) := by
          intro hcon
          exact hq_not_rest
            (by simpa [dkeys, hcon] using List.mem_map_of_mem (fun x => x.1) hr)
        simp [updVal, dget, hr_ne]
    · have hmem' : q.1 ∈ dkeys rest := by
        simp only [dkeys, List.map_cons, List.mem_cons] at hmem
        rcases hmem with h | h
        · exact absurd h.symm hp
        · simpa [dkeys] using h
      rw [dset, if_neg hp]
      simp only [List.map_cons]
      congr 1
      · have hp' : ¬(q.1 = p.1) := fun hc => hp hc.symm
        simp [updVal, dget, hp']
      · exact ih (by simpa [dkeys] using hnd.2) hmem' hnm

theorem dupdate_closed (m : Dict) :
    ∀ d : Dict, (dkeys d).Nodup → (dkeys m).Nodup →
      dupdate d m =
        d.map (updVal m) ++ m.filter (fun q => (dget d q.1).isNone) := by
  induction m with
  | nil =>
    intro d _ _
    show d = d.map (updVal []) ++ _
    simp [map_updVal_nil, List.filter]
  | cons q m' ih =>
    intro d hd hm
    simp only [dkeys, List.map_cons, List.nodup_cons] at hm
    have hq_not_m' : q.1 ∉ dkeys m' := by simpa [dkeys] using hm.1
    have hm' : (dkeys m').Nodup := by simpa [dkeys] using hm.2
    show dupdate (dset d q.1 q.2) m' = _
    by_cases hmem : q.1 ∈ dkeys d
    · have hnd' : (dkeys (dset d q.1 q.2)).Nodup := dkeys_nodup_dset d q.1 q.2 hd
      rw [ih (dset d q.1 q.2) hnd' hm']
      have hfil : m'.filter (fun r => (dget (dset d q.1 q.2) r.1).isNone) =
          m'.filter (fun r => (dget d r.1).isNone) := by
        apply List.filter_congr
        intro r _
        by_cases hrq : r.1 = q.1
        · have h1 : dget d r.1 ≠ none := fun hc =>
            ((dget_eq_none_iff d r.1).1 hc) (by simpa [hrq] using hmem)
          have h2 : dget (dset d q.1 q.2) r.1 ≠ none := fun hc =>
            ((dget_eq_none_iff _ _).1 hc)
              (by rw [dkeys_dset_of_mem d q.1 q.2 hmem]; simpa [hrq] using hmem)
          cases hdg : dget d r.1 with
          | none => exact absurd hdg h1
          | some v1 =>
            cases hdg2 : dget (dset d q.1 q.2) r.1 with
            | none => exact absurd hdg2 h2
            | some v2 => rfl
        · rw [dget_dset_ne d q.1 q.2 r.1 hrq]
      rw [hfil, dset_map_updVal q m' d hd hmem hq_not_m']
      have hqdrop : (q :: m').filter (fun r => (dget d r.1).isNone) =
          m'.filter (fun r => (dget d r.1).isNone) := by
        have hne : dget d q.1 ≠ none := fun hc =>
          ((dget_eq_none_iff d q.1).1 hc) hmem
        have hb : (dget d q.1).isNone = false := by
          cases hdg : dget d q.1 with
          | none => exact absurd hdg hne
          | some v => rfl
        simp [List.filter_cons, hb]
      rw [hqdrop]
    · have hset : dset d q.1 q.2 = d ++ [(q.1, q.2)] :=
        dset_of_not_mem d q.1 q.2 hmem
      have hkeys : dkeys (dset d q.1 q.2) = dkeys d ++ [q.1] := by
        rw [hset]; simp [dkeys]
      have hnd' : (dkeys (dset d q.1 q.2)).Nodup := by
        rw [hkeys, List.nodup_append]
        refine ⟨hd, by simp, ?_⟩
        intro a ha hb
        simp only [List.mem_singleton] at hb
        exact hmem (hb ▸ ha)
      rw [ih (dset d q.1 q.2) hnd' hm', hset]
      have hmap : (d ++ [(q.1, q.2)]).map (updVal m') =
          d.map (updVal (q :: m')) ++ [(q.1, q.2)] := by
        rw [List.map_append]
        have h1 : d.map (updVal m') = d.map (updVal (q :: m')) := by
          apply List.map_congr_left
          intro r hr
          have hr_ne : ¬(q.1 = r.1) := by
            intro hcon
            exact hmem (by simpa [dkeys, hcon] using List.mem_map_of_mem (fun x => x.1) hr)
          simp [updVal, dget, hr_ne]
        have h2 : [(q.1, q.2)].map (updVal m') = [(q.1, q.2)] := by
          simp [updVal, dget, (dget_eq_none_iff m' q.1).2 hq_not_m']
        rw [h1, h2]
      have hfil : m'.filter (fun r => (dget (d ++ [(q.1, q.2)]) r.1).isNone) =
          m'.filter (fun r => (dget d r.1).isNone) := by
        apply List.filter_congr
        intro r hr
        have hr_ne : ¬(q.1 = r.1) := by
          intro hcon
          exact hq_not_m' (by simpa [dkeys, hcon] using List.mem_map_of_mem (fun x => x.1) hr)
        rw [dget_append]
        have hnone : dget [(q.1, q.2)] r.1 = none := by
          simp [dget, hr_ne]
        rw [hnone]
        cases dget d r.1 <;> rfl
      have hqkeep : (q :: m').filter (fun r => (dget d r.1).isNone) =
          q :: m'.filter (fun r => (dget d r.1).isNone) := by
        have hnn : dget d q.1 = none := (dget_eq_none_iff d q.1).2 hmem
        simp [List.filter_cons, hnn]
      rw [hmap, hfil, hqkeep, List.append_assoc]
      rfl

/-- Closed form of `dict(text=t).update(m)` for a real Python dict `m`:
the `text` entry keeps its position and is overridden when `m` supplies a
`text` key; the remaining entries of `m` follow in order. -/
theorem dupdate_single_text (t : String) (m : Dict) (hm : (dkeys m).Nodup) :
    dupdate [("text", t)] m =
      ("text", (dget m "text").getD t) :: m.filter (fun q => !(q.1 == "text")) := by
  have hd : (dkeys [("text", t)]).Nodup := by simp [dkeys]
  rw [dupdate_closed m [("text", t)] hd hm]
  have hfil : m.filter (fun q => (dget [("text", t)] q.1).isNone) =
      m.filter (fun q => !(q.1 == "text")) := by
    apply List.filter_congr
    intro q _
    by_cases hq : q.1 = "text"
    · simp [dget, hq]
    · have hq' : ¬("text" = q.1) := fun hc => hq hc.symm
      simp [dget, hq, hq']
  rw [hfil]
  simp [updVal, dget]

/-!
Embedding of `LogosVectorStore.upsert` (src/src/engine/vector_store.py).
For each text the code builds the payload as the one-entry dict mapping
`text` to the text and then, when `metadatas` is given (truthy) and
`i < len(metadatas)`, runs `payload.update(metadatas[i])`.
The recursion below walks `texts` in parallel with the metadata list just
as the indexed loop does: once the metadata list is exhausted the remaining
texts get the plain `text` payload.
-/

def upsertPointsAux : List String → List Dict → List Dict
  | [], _ => []
  | t :: ts, [] => [("text", t)] :: upsertPointsAux ts []
  | t :: ts, m :: mrest => dupdate [("text", t)] m :: upsertPointsAux ts mrest

/-- The payloads of the points `upsert(collection_name, texts, metadatas)`
uploads, in order.  `ms = none` is Python `metadatas=None`. -/
def upsertPoints (texts : List String) (ms : Option (List Dict)) : List Dict :=
  upsertPointsAux texts (ms.getD [])

/-- Externally visible effects of one `upsert` call: the batches passed to
`embedder.embed_text` and the `(collection, payloads)` of each
`client.upsert` call.  `if not texts: return` produces no effects. -/
structure UpsertRun where
  embedCalls : List (List String)
  indexUpserts : List (String × List Dict)
  deriving DecidableEq

def upsert_run (collection : String) (texts : List String)
    (ms : Option (List Dict)) : UpsertRun :=
  if texts.isEmpty then ⟨[], []⟩
  else ⟨[texts], [(collection, upsertPoints texts ms)]⟩

theorem upsertPointsAux_length (texts : List String) :
    ∀ msl : List Dict, (upsertPointsAux texts msl).length = texts.length := by
  induction texts with
  | nil => intro msl; cases msl <;> rfl
  | cons t ts ih =>
    intro msl
    cases msl with
    | nil => simp [upsertPointsAux, ih]
    | cons m mrest => simp [upsertPointsAux, ih]

theorem upsertPointsAux_getD (texts : List String) :
    ∀ (msl : List Dict) (i : Nat), i < texts.length →
      (dkeys (msl.getD i [])).Nodup →
      (upsertPointsAux texts msl).getD i [] =
        ("text", (dget (msl.getD i []) "text").getD (texts.getD i "")) ::
          (msl.getD i []).filter (fun q => !(q.1 == "text")) := by
  induction texts with
  | nil => intro msl i h _; simp at h
  | cons t ts ih =>
    intro msl i h hm
    cases msl with
    | nil =>
      cases i with
      | zero => simp [upsertPointsAux, dget]
      | succ j =>
        have hj : j < ts.length := by simpa using h
        simpa [upsertPointsAux] using ih [] j hj (by simp [dkeys])
    | cons m mrest =>
      cases i with
      | zero =>
        have hm0 : (dkeys m).Nodup := by simpa using hm
        simpa [upsertPointsAux] using dupdate_single_text t m hm0
      | succ j =>
        have hj : j < ts.length := by simpa using h
        have hmj : (dkeys (mrest.getD j [])).Nodup := by simpa using hm
        simpa [upsertPointsAux] using ih mrest j hj hmj

/-- Claim C1: for `upsert(collection_name, texts, metadatas)` with non-empty
`texts`, the payload of the `i`-th stored point is the dict `text ↦ texts[i]`
updated with `metadatas[i]` whenever metadatas is given and `i` is within it
(so a `text` key supplied by the caller overrides the original text, and the
other metadata entries follow in order), and is exactly the one-entry dict
`text ↦ texts[i]` when metadatas is absent or shorter than texts. -/
theorem upsert_payload_spec (texts : List String) (ms : Option (List Dict))
    (i : Nat) (h : i < texts.length)
    (hm : (dkeys ((ms.getD []).getD i [])).Nodup) :
    (upsertPoints texts ms).length = texts.length ∧
    (upsertPoints texts ms).getD i [] =
      ("text", (dget ((ms.getD []).getD i []) "text").getD (texts.getD i "")) ::
        ((ms.getD []).getD i []).filter (fun q => !(q.1 == "text")) ∧
    dget ((upsertPoints texts ms).getD i []) "text" =
      some ((dget ((ms.getD []).getD i []) "text").getD (texts.getD i "")) := by
  have hlen := upsertPointsAux_length texts (ms.getD [])
  have hget := upsertPointsAux_getD texts (ms.getD []) i h hm
  refine ⟨hlen, hget, ?_⟩
  rw [upsertPoints, hget, dget]
  simp

/-- Witness for C1 at a concrete input: the caller's metadata overrides the
`text` key and its remaining entries follow. -/
theorem upsert_payload_spec_witness :
    (upsertPoints ["hello"] (some [[("text", "override"), ("k", "v")]])).getD 0 [] =
      [("text", "override"), ("k", "v")] :=
  (upsert_payload_spec ["hello"] (some [[("text", "override"), ("k", "v")]]) 0
      (by decide) (by decide)).2.1.trans (by decide)

/-!
Embedding of `Letter` and `LetterProtocol` (src/src/memory/letter_protocol.py).  After
`__post_init__` every field of a `Letter` is a string, so the structure has
six string fields.  `__post_init__`'s regeneration of `None` timestamps and
ids is modelled by `letter_init`, which receives the would-be generated
values as explicit `fresh` arguments.  The vector store is modelled by
recording the upsert calls the protocol makes (`VSCall`), together with a
boolean saying whether the underlying upsert succeeds or raises.
-/

structure Letter where
  interaction_summary : String
  emotional_context : String
  lesson_learned : String
  creator : String
  timestamp : String
  letter_id : String
  deriving DecidableEq

/-- Python `str.strip()` on the character list. -/
def pyStripChars (cs : List Char) : List Char :=
  ((cs.dropWhile Char.isWhitespace).reverse.dropWhile Char.isWhitespace).reverse

/-- Python `s.strip()` (whitespace is modelled by `Char.isWhitespace`). -/
def pyStrip (s : String) : String :=
  ⟨pyStripChars s.data⟩

/-- Validity check `Letter.is_valid`: both required fields non-blank after stripping. -/
def Letter.is_valid (L : Letter) : Bool :=
  !(pyStrip L.interaction_summary == "") && !(pyStrip L.emotional_context == "")

/-- Formatting `Letter.format_letter`: the traditional Sophia letter layout. -/
def Letter.format_letter (L : Letter) : String :=
  let t := "Letter for the Future Self\n\nContext: " ++ L.emotional_context ++
    "\nSummary: " ++ L.interaction_summary
  let t := if L.lesson_learned == "" then t else t ++ "\nLesson: " ++ L.lesson_learned
  t ++ "\nCreator: " ++ L.creator ++ "\nTimestamp: " ++ L.timestamp ++
    "\nLetter ID: " ++ L.letter_id

/-- The `Letter` constructor including `__post_init__`: an explicitly
supplied timestamp or letter id is preserved, a `None` one is replaced by
the freshly generated value. -/
def letter_init (s e l c : String) (ts lid : Option String)
    (freshTs freshId : String) : Letter :=
  ⟨s, e, l, c, ts.getD freshTs, lid.getD freshId⟩

/-- Serialisation `Letter.to_dict` = `dataclasses.asdict`, in field order. -/
def Letter.to_dict (L : Letter) : Dict :=
  [("interaction_summary", L.interaction_summary),
   ("emotional_context", L.emotional_context),
   ("lesson_learned", L.lesson_learned),
   ("creator", L.creator),
   ("timestamp", L.timestamp),
   ("letter_id", L.letter_id)]

/-- Deserialisation `Letter.from_dict` = `cls(**data)`: required fields must be present,
optional ones fall back to the dataclass defaults, and an absent timestamp
or letter id is `None` and hence regenerated by `__post_init__`. -/
def Letter.from_dict (d : Dict) (freshTs freshId : String) : Option Letter :=
  match dget d "interaction_summary", dget d "emotional_context" with
  | some s, some e =>
      some (letter_init s e ((dget d "lesson_learned").getD "")
        ((dget d "creator").getD "unknown")
        (dget d "timestamp") (dget d "letter_id") freshTs freshId)
  | _, _ => none

/-- Claim C9: for every Letter (valid or not) `from_dict (to_dict L)` yields
a Letter equal to `L` in all six fields, whatever fresh timestamp and id the
constructor would otherwise generate, because an explicitly supplied
timestamp and letter id are preserved rather than regenerated. -/
theorem letter_roundtrip (L : Letter) (freshTs freshId : String) :
    Letter.from_dict L.to_dict freshTs freshId = some L := by
  cases L
  simp [Letter.to_dict, Letter.from_dict, letter_init, dget]

/-- One upsert call observed by the mock vector store. -/
structure VSCall where
  collection : String
  texts : List String
  metadatas : List Dict
  deriving DecidableEq

/-- The metadata dict `store_letter`/`store_letters_bulk` builds for a
letter (summary and lesson truncated to 200 characters for search). -/
def letterMetadata (L : Letter) : Dict :=
  [("type", "future_letter"),
   ("letter_id", L.letter_id),
   ("creator", L.creator),
   ("emotional_context", L.emotional_context),
   ("timestamp", L.timestamp),
   ("interaction_summary", L.interaction_summary.take 200),
   ("lesson_learned", if L.lesson_learned == "" then "" else L.lesson_learned.take 200)]

/-- Embedding of `LetterProtocol.store_letter`.  `hasStore` is whether a vector store is
attached; `upsertOk` is whether the underlying upsert succeeds (when it
raises, the `except` swallows the exception and the call returns `False`).
The second component is the list of upsert calls attempted. -/
def store_letter (hasStore upsertOk : Bool) (L : Letter) : Bool × List VSCall :=
  if !hasStore then (false, [])
  else if !L.is_valid then (false, [])
  else if upsertOk then
    (true, [⟨"logos_essence", [L.format_letter], [letterMetadata L]⟩])
  else
    (false, [⟨"logos_essence", [L.format_letter], [letterMetadata L]⟩])

/-- Embedding of `LetterProtocol.store_letters_bulk`: filter the valid letters, bail out
with `False` (no store call) when none remain, otherwise upsert all of them
in one call. -/
def store_letters_bulk (hasStore upsertOk : Bool) (letters : List Letter) :
    Bool × List VSCall :=
  if !hasStore then (false, [])
  else
    let valid := letters.filter (fun L => L.is_valid)
    if valid.isEmpty then (false, [])
    else if upsertOk then
      (true, [⟨"logos_essence", valid.map Letter.format_letter, valid.map letterMetadata⟩])
    else
      (false, [⟨"logos_essence", valid.map Letter.format_letter, valid.map letterMetadata⟩])

/-- Claim C2: `store_letter` returns `false` (without raising) when no
vector store is attached, when the letter is invalid (blank summary or
context after stripping) — in which case it attempts zero upsert calls —
and when the underlying upsert raises; it returns `true` exactly when the
store is attached, the letter is valid and the single upsert to
`logos_essence` succeeds. -/
theorem store_letter_spec (hasStore upsertOk : Bool) (L : Letter) :
    (hasStore = false → store_letter hasStore upsertOk L = (false, [])) ∧
    (L.is_valid = false → store_letter hasStore upsertOk L = (false, [])) ∧
    (upsertOk = false → (store_letter hasStore upsertOk L).1 = false) ∧
    (store_letter hasStore upsertOk L).1 = (hasStore && L.is_valid && upsertOk) ∧
    ((store_letter hasStore upsertOk L).1 = true →
      (store_letter hasStore upsertOk L).2 =
        [⟨"logos_essence", [L.format_letter], [letterMetadata L]⟩]) := by
  cases hasStore <;> cases upsertOk <;> cases hv : L.is_valid <;>
    simp [store_letter, hv]

/-- Witness for C2: a blank-summary letter is rejected with no upsert call,
and a valid letter with a working store is stored. -/
theorem store_letter_spec_witness :
    store_letter true true (Letter.mk "" "ctx" "" "unknown" "t" "id") = (false, []) ∧
    (store_letter true true (Letter.mk "sum" "ctx" "" "unknown" "t" "id")).1 = true :=
  ⟨(store_letter_spec true true (Letter.mk "" "ctx" "" "unknown" "t" "id")).2.1 (by decide),
   ((store_letter_spec true true (Letter.mk "sum" "ctx" "" "unknown" "t" "id")).2.2.2.1).trans
     (by decide)⟩

/-- Claim C7: `upsert` on an empty texts list performs zero embedder calls
and zero index calls, and `store_letters_bulk` on a list with no valid
letters (the empty list included) returns `false` without calling the
vector store. -/
theorem empty_batch_noop (c : String) (ms : Option (List Dict))
    (hasStore upsertOk : Bool) (letters : List Letter)
    (hinv : letters.filter (fun L => L.is_valid) = []) :
    upsert_run c [] ms = ⟨[], []⟩ ∧
    store_letters_bulk hasStore upsertOk letters = (false, []) ∧
    store_letters_bulk hasStore upsertOk [] = (false, []) := by
  refine ⟨rfl, ?_, ?_⟩
  · cases hasStore <;> simp [store_letters_bulk, hinv]
  · cases hasStore <;> simp [store_letters_bulk, List.filter]

/-- Witness for C7: a batch holding one blank-summary letter stores nothing
and returns `false`. -/
theorem empty_batch_noop_witness :
    store_letters_bulk true true [Letter.mk " " "ctx" "" "unknown" "t" "id"] = (false, []) :=
  (empty_batch_noop "logos_essence" none true true
    [Letter.mk " " "ctx" "" "unknown" "t" "id"] (by decide)).2.1

/-!
Embedding of `_extract_summary_from_letter` (src/src/tools/memory_tools.py): split the
letter text on newlines, find the first line starting with `Summary:`,
remove every occurrence of the substring `Summary:` from that line and
strip whitespace; if no such line exists fall back to the first 100
characters followed by `"..."`.
-/

def sumPat : List Char := "Summary:".data

/-- Python `text.split('\n')` over the character list (empty segments are
kept, the empty text gives one empty line). -/
def splitLines : List Char → List (List Char)
  | [] => [[]]
  | c :: rest =>
    if c = '\n' then [] :: splitLines rest
    else
      match splitLines rest with
      | [] => [[c]]
      | l :: ls => (c :: l) :: ls

/-- Does `pat` occur as a contiguous substring? -/
def listContains : List Char → List Char → Bool
  | [], pat => pat.isEmpty
  | c :: rest, pat => pat.isPrefixOf (c :: rest) || listContains rest pat

/-- Python `line.replace('Summary:', '')`: left-to-right, non-overlapping.
Fuel-based structural recursion (`fuel = length` always suffices) so that
the function evaluates by kernel reduction. -/
def replaceSummaryFuel : Nat → List Char → List Char
  | 0, cs => cs
  | _ + 1, [] => []
  | fuel + 1, c :: rest =>
    if sumPat.isPrefixOf (c :: rest) then replaceSummaryFuel fuel ((c :: rest).drop 8)
    else c :: replaceSummaryFuel fuel rest

def replaceSummary (cs : List Char) : List Char :=
  replaceSummaryFuel cs.length cs

/-- Walk the lines, returning the processed first `Summary:` line. -/
def extractSummaryLines : List (List Char) → Option (List Char)
  | [] => none
  | l :: ls =>
    if sumPat.isPrefixOf l then some (pyStripChars (replaceSummary l))
    else extractSummaryLines ls

/-- Embedding of `_extract_summary_from_letter`. -/
def extract_summary (letter_text : String) : String :=
  match extractSummaryLines (splitLines letter_text.data) with
  | some r => ⟨r⟩
  | none => letter_text.take 100 ++ "..."

theorem isPrefixOf_append_self (p z : List Char) : p.isPrefixOf (p ++ z) = true := by
  induction p with
  | nil => simp [List.isPrefixOf]
  | cons a p' ih => simp [List.isPrefixOf, ih]

theorem isPrefixOf_cons_false (a b : Char) (p z : List Char) (h : (a == b) = false) :
    (a :: p).isPrefixOf (b :: z) = false := by
  simp [List.isPrefixOf, h]

theorem splitLines_no_nl (xs : List Char) (h : '\n' ∉ xs) : splitLines xs = [xs] := by
  induction xs with
  | nil => rfl
  | cons c rest ih =>
    simp only [List.mem_cons] at h
    push_neg at h
    have hc : ¬(c = '\n') := fun hc => h.1 hc.symm
    rw [splitLines, if_neg hc, ih h.2]

theorem splitLines_append_nl (xs rest : List Char) (h : '\n' ∉ xs) :
    splitLines (xs ++ '\n' :: rest) = xs :: splitLines rest := by
  induction xs with
  | nil => simp [splitLines]
  | cons c xs' ih =>
    simp only [List.mem_cons] at h
    push_neg at h
    have hc : ¬(c = '\n') := fun hc => h.1 hc.symm
    rw [List.cons_append, splitLines, if_neg hc, ih h.2]

theorem replaceSummaryFuel_id (cs : List Char) (hocc : listContains cs sumPat = false) :
    ∀ fuel : Nat, replaceSummaryFuel fuel cs = cs := by
  induction cs with
  | nil => intro fuel; cases fuel <;> rfl
  | cons c rest ih =>
    intro fuel
    rw [listContains, Bool.or_eq_false_iff] at hocc
    cases fuel with
    | zero => rfl
    | succ f =>
      rw [replaceSummaryFuel, if_neg (by simp [hocc.1]), ih hocc.2 f]

theorem replaceSummary_append_pat (x : List Char) (hocc : listContains x sumPat = false) :
    replaceSummary (sumPat ++ x) = x := by
  have hlen : (sumPat ++ x).length = x.length + 8 := by
    simp [sumPat]
  have hcons : sumPat ++ x = 'S' :: ("ummary:".data ++ x) := by
    have hS : sumPat = 'S' :: "ummary:".data := by decide
    rw [hS]
    rfl
  rw [replaceSummary, hlen, hcons]
  rw [replaceSummaryFuel, if_pos (by rw [← hcons]; exact isPrefixOf_append_self sumPat x)]
  have hdrop : ('S' :: ("ummary:".data ++ x)).drop 8 = x := by
    rw [← hcons]
    have h8 : sumPat.length = 8 := by decide
    rw [← h8, List.drop_left]
  rw [hdrop]
  exact replaceSummaryFuel_id x hocc _

theorem pyStripChars_space_cons (s : List Char)
    (h1 : s.dropWhile Char.isWhitespace = s)
    (h2 : s.reverse.dropWhile Char.isWhitespace = s.reverse) :
    pyStripChars (' ' :: s) = s := by
  have hws : Char.isWhitespace ' ' = true := by decide
  rw [pyStripChars, List.dropWhile_cons, if_pos hws, h1, h2, List.reverse_reverse]

theorem sumPat_cons : sumPat = 'S' :: "ummary:".data := by decide

theorem extract_from_shape (e s rest : List Char)
    (he : '\n' ∉ e) (hs : '\n' ∉ s)
    (hocc : listContains s sumPat = false)
    (hlead : s.dropWhile Char.isWhitespace = s)
    (htrail : s.reverse.dropWhile Char.isWhitespace = s.reverse) :
    extractSummaryLines (splitLines
      ("Letter for the Future Self".data ++ '\n' ::
        ([] ++ '\n' :: (("Context: ".data ++ e) ++ '\n' ::
          ((sumPat ++ ' ' :: s) ++ '\n' :: rest))))) = some s := by
  rw [splitLines_append_nl "Letter for the Future Self".data _ (by decide)]
  rw [splitLines_append_nl [] _ (by simp)]
  rw [splitLines_append_nl ("Context: ".data ++ e) _
    (by simp only [List.mem_append]
        rintro (h | h)
        · exact absurd h (by decide)
        · exact he h)]
  rw [splitLines_append_nl (sumPat ++ ' ' :: s) _
    (by simp only [List.mem_append, List.mem_cons]
        rintro (h | h | h)
        · exact absurd h (by decide)
        · exact absurd h (by decide)
        · exact hs h)]
  rw [extractSummaryLines, if_neg (by decide)]
  rw [extractSummaryLines, if_neg (by decide)]
  have hctx : ("Context: ".data ++ e) = 'C' :: ("ontext: ".data ++ e) := by
    have : "Context: ".data = 'C' :: "ontext: ".data := by decide
    rw [this]; rfl
  have hnopref : sumPat.isPrefixOf ("Context: ".data ++ e) = false := by
    rw [hctx, sumPat_cons]
    exact isPrefixOf_cons_false _ _ _ _ (by decide)
  rw [extractSummaryLines, if_neg (by rw [hnopref]; exact Bool.false_ne_true)]
  rw [extractSummaryLines, if_pos (isPrefixOf_append_self sumPat (' ' :: s))]
  have hocc' : listContains (' ' :: s) sumPat = false := by
    rw [listContains, Bool.or_eq_false_iff]
    refine ⟨?_, hocc⟩
    rw [sumPat_cons]
    exact isPrefixOf_cons_false _ _ _ _ (by decide)
  rw [replaceSummary_append_pat (' ' :: s) hocc']
  rw [pyStripChars_space_cons s hlead htrail]

/-- Claim C3 counterexample: the round-trip fails as universally stated.
The valid letter with `interaction_summary = "a "` (trailing blank) is
formatted to a `Summary: a ` line, but the extraction strips the line, so
it returns `"a"`, not `"a "`. -/
theorem extract_summary_counterexample :
    (Letter.mk "a " "ok" "" "unknown" "t" "id").is_valid = true ∧
    extract_summary ((Letter.mk "a " "ok" "" "unknown" "t" "id").format_letter) ≠
      (Letter.mk "a " "ok" "" "unknown" "t" "id").interaction_summary := by
  decide

/-- Claim C3, amended: for every valid Letter whose interaction summary
contains no newline, no occurrence of the substring `Summary:`, and no
leading or trailing whitespace, and whose emotional context contains no
newline, extracting the canonical `Summary:` line from the formatted
letter recovers the interaction summary exactly. -/
theorem format_letter_summary_roundtrip (L : Letter)
    (hv : L.is_valid = true)
    (hs_nl : '\n' ∉ L.interaction_summary.data)
    (he_nl : '\n' ∉ L.emotional_context.data)
    (hocc : listContains L.interaction_summary.data sumPat = false)
    (hlead : L.interaction_summary.data.dropWhile Char.isWhitespace =
      L.interaction_summary.data)
    (htrail : L.interaction_summary.data.reverse.dropWhile Char.isWhitespace =
      L.interaction_summary.data.reverse) :
    extract_summary L.format_letter = L.interaction_summary := by
  have hc1 : "Letter for the Future Self\n\nContext: ".data =
      "Letter for the Future Self".data ++ '\n' :: '\n' :: "Context: ".data := by decide
  have hc2 : "\nSummary: ".data = '\n' :: (sumPat ++ [' ']) := by decide
  have hc3 : "\nLesson: ".data = '\n' :: "Lesson: ".data := by decide
  have hc4 : "\nCreator: ".data = '\n' :: "Creator: ".data := by decide
  have hx : extractSummaryLines (splitLines (L.format_letter).data) =
      some L.interaction_summary.data := by
    cases hl : (L.lesson_learned == "") with
    | true =>
      have hdata : (L.format_letter).data =
          "Letter for the Future Self".data ++ '\n' ::
            ([] ++ '\n' :: (("Context: ".data ++ L.emotional_context.data) ++ '\n' ::
              ((sumPat ++ ' ' :: L.interaction_summary.data) ++ '\n' ::
                ("Creator: ".data ++ (L.creator.data ++ ("\nTimestamp: ".data ++
                  (L.timestamp.data ++ ("\nLetter ID: ".data ++ L.letter_id.data)))))))) := by
        simp [Letter.format_letter, hl, String.data_append, hc1, hc2, hc4, sumPat]
      rw [hdata]
      exact extract_from_shape _ _ _ he_nl hs_nl hocc hlead htrail
    | false =>
      have hdata : (L.format_letter).data =
          "Letter for the Future Self".data ++ '\n' ::
            ([] ++ '\n' :: (("Context: ".data ++ L.emotional_context.data) ++ '\n' ::
              ((sumPat ++ ' ' :: L.interaction_summary.data) ++ '\n' ::
                ("Lesson: ".data ++ (L.lesson_learned.data ++ ("\nCreator: ".data ++
                  (L.creator.data ++ ("\nTimestamp: ".data ++
                    (L.timestamp.data ++ ("\nLetter ID: ".data ++ L.letter_id.data)))))))))) := by
        simp [Letter.format_letter, hl, String.data_append, hc1, hc2, hc3, sumPat]
      rw [hdata]
      exact extract_from_shape _ _ _ he_nl hs_nl hocc hlead htrail
  rw [extract_summary, hx]

/-- Witness for the amended C3 at a concrete letter. -/
theorem format_letter_summary_roundtrip_witness :
    extract_summary ((Letter.mk "helped with review" "productive" "tests matter"
      "creator" "2024" "id-1").format_letter) = "helped with review" :=
  format_letter_summary_roundtrip
    (Letter.mk "helped with review" "productive" "tests matter" "creator" "2024" "id-1")
    (by decide) (by decide) (by decide) (by decide) (by decide) (by decide)

/-!
Embedding of `LogosPromptManager.build_system_prompt`
(src/logos-core/src/personality/prompt_manager.py).  The constitution text
is a parameter (the Python object reads it from its constitution loader).
Python truthiness of the optional list arguments is `truthyList`.
-/

def truthyList : Option (List String) → Bool
  | none => false
  | some l => !l.isEmpty

/-- The bullet lines a context section appends, one `• item` line each. -/
def bullets (items : List String) : String :=
  items.foldl (fun acc m => acc ++ "• " ++ m ++ "\n") ""

def build_system_prompt (constitution : String)
    (personality_context technical_context context_chunks : Option (List String)) :
    String :=
  let technical_context :=
    if truthyList context_chunks && !(truthyList technical_context) then context_chunks
    else technical_context
  let sp := "LOGOS CONSTITUTION:\n" ++ constitution ++ "\n\n"
  let sp := sp ++ "OPERATIONAL GUIDELINES:\n- You are Logos, following the Sophia methodology for personality development.\n- Use the PROVIDED CONTEXT to answer. If the answer is not in the context, state that the information is not available in Logos' memory.\n- Avoid hallucinations. Be logical, grounded, and helpful.\n- Maintain consistency with Logos' personality and principles.\n\n"
  let hasP := truthyList personality_context
  let hasT := truthyList technical_context
  let sp :=
    if hasP || hasT then
      let sp := if hasP then
          sp ++ "PERSONALITY CONTEXT (Memories & Experiences):\n" ++
            bullets (personality_context.getD []) ++ "\n"
        else sp
      if hasT then
        sp ++ "TECHNICAL CONTEXT (Knowledge & Facts):\n" ++
          bullets (technical_context.getD []) ++ "\n"
      else sp
    else sp ++ "NOTICE: No additional context provided. Rely on constitution and logical reasoning.\n\n"
  sp ++ "GUIDELINES:\n- Structure responses clearly when appropriate\n- Reference the context when relevant\n- Be honest about uncertainty\n- Maintain Logos' personality throughout\n"

/-- The remainder of `cs` after the first occurrence of `pat`, if any. -/
def dropAfter : List Char → List Char → Option (List Char)
  | [], pat => if pat.isEmpty then some [] else none
  | c :: rest, pat =>
    if pat.isPrefixOf (c :: rest) then some ((c :: rest).drop pat.length)
    else dropAfter rest pat

/-- Do the patterns occur in `cs`, in this order, without overlapping? -/
def containsInOrder : List Char → List (List Char) → Bool
  | _, [] => true
  | cs, p :: ps =>
    match dropAfter cs p with
    | some rest => containsInOrder rest ps
    | none => false

/-- Claim C4: `build_system_prompt` is a pure function of the constitution
text and the three optional context lists.  With constitution `C`,
personality `[A]` and technical `[B]` the output contains, in order, the
constitution block, the personality header, the `• A` bullet, the technical
header and the `• B` bullet; with both context lists empty or absent it
contains the no-context notice and neither header; and a `context_chunks`
argument supplied while the technical list is not is treated exactly as the
technical context list. -/
theorem build_system_prompt_spec :
    (containsInOrder (build_system_prompt "C" (some ["A"]) (some ["B"]) none).data
      ["LOGOS CONSTITUTION:\nC".data, "PERSONALITY CONTEXT".data, "• A".data,
       "TECHNICAL CONTEXT".data, "• B".data] = true) ∧
    (∀ p t cc : Option (List String),
      (p = none ∨ p = some []) → (t = none ∨ t = some []) → (cc = none ∨ cc = some []) →
      listContains (build_system_prompt "C" p t cc).data
        "NOTICE: No additional context provided".data = true ∧
      listContains (build_system_prompt "C" p t cc).data
        "PERSONALITY CONTEXT".data = false ∧
      listContains (build_system_prompt "C" p t cc).data
        "TECHNICAL CONTEXT".data = false) ∧
    (∀ (c : String) (p cc : Option (List String)),
      build_system_prompt c p none cc = build_system_prompt c p cc none) := by
  refine ⟨by decide, ?_, ?_⟩
  · intro p t cc hp ht hcc
    rcases hp with rfl | rfl <;> rcases ht with rfl | rfl <;> rcases hcc with rfl | rfl <;>
      exact ⟨by decide, by decide, by decide⟩
  · intro c p cc
    cases cc with
    | none => rfl
    | some l =>
      cases l with
      | nil => rfl
      | cons x xs => rfl

/-- Witness for C4: with no context lists the headers are absent. -/
theorem build_system_prompt_spec_witness :
    listContains (build_system_prompt "C" none none none).data
      "PERSONALITY CONTEXT".data = false :=
  (build_system_prompt_spec.2.1 none none none (Or.inl rfl) (Or.inl rfl) (Or.inl rfl)).2.1

/-!
Query tools (src/src/tools/query_tools.py).  The vector store search is an
oracle `search collection question limit` returning scored results; the
float similarity scores are modelled as rationals.  `get_memory_context`
returns the merged memory list together with the `(collection, limit)` of
each search call it makes; Python's stable `list.sort(key=score,
reverse=True)` is modelled by a stable insertion sort into descending
order.
-/

structure SearchResult where
  payload : Dict
  score : ℚ
  deriving DecidableEq, Inhabited

structure MemEntry where
  collection : String
  text : String
  metadata : Dict
  score : ℚ
  deriving DecidableEq, Inhabited

/-- One entry of the `memories` list: text pulled out of the payload, the
rest of the payload as metadata. -/
def memEntry (coll : String) (r : SearchResult) : MemEntry :=
  ⟨coll, (dget r.payload "text").getD "",
   r.payload.filter (fun p => !(p.1 == "text")), r.score⟩

def insertDesc (x : MemEntry) : List MemEntry → List MemEntry
  | [] => [x]
  | y :: ys => if x.score < y.score then y :: insertDesc x ys else x :: y :: ys

/-- Stable descending sort by score (insertion sort). -/
def sortDesc (l : List MemEntry) : List MemEntry :=
  l.foldr insertDesc []

theorem mem_insertDesc (x z : MemEntry) (l : List MemEntry) :
    z ∈ insertDesc x l ↔ z = x ∨ z ∈ l := by
  induction l with
  | nil => simp [insertDesc]
  | cons y ys ih =>
    by_cases h : x.score < y.score <;> simp [insertDesc, h, ih] <;> tauto

theorem insertDesc_sorted (x : MemEntry) (l : List MemEntry)
    (h : List.Pairwise (fun a b : MemEntry => b.score ≤ a.score) l) :
    List.Pairwise (fun a b : MemEntry => b.score ≤ a.score) (insertDesc x l) := by
  induction l with
  | nil => simp [insertDesc]
  | cons y ys ih =>
    rw [List.pairwise_cons] at h
    by_cases hxy : x.score < y.score
    · rw [insertDesc, if_pos hxy, List.pairwise_cons]
      refine ⟨?_, ih h.2⟩
      intro z hz
      rcases (mem_insertDesc x z ys).1 hz with rfl | hz'
      · exact le_of_lt hxy
      · exact h.1 z hz'
    · rw [insertDesc, if_neg hxy, List.pairwise_cons]
      push_neg at hxy
      refine ⟨?_, List.pairwise_cons.2 h⟩
      intro z hz
      rcases List.mem_cons.1 hz with rfl | hz'
      · exact hxy
      · exact le_trans (h.1 z hz') hxy

theorem sortDesc_sorted (l : List MemEntry) :
    List.Pairwise (fun a b : MemEntry => b.score ≤ a.score) (sortDesc l) := by
  induction l with
  | nil => simp [sortDesc]
  | cons x xs ih => exact insertDesc_sorted x (sortDesc xs) ih

theorem length_insertDesc (x : MemEntry) (l : List MemEntry) :
    (insertDesc x l).length = l.length + 1 := by
  induction l with
  | nil => rfl
  | cons y ys ih =>
    by_cases h : x.score < y.score <;> simp [insertDesc, h, ih]

theorem length_sortDesc (l : List MemEntry) :
    (sortDesc l).length = l.length := by
  induction l with
  | nil => rfl
  | cons x xs ih => simp [sortDesc, length_insertDesc, List.foldr_cons] at ih ⊢; omega

/-- Embedding of `get_memory_context(question, collection, limit)`: the merged, sorted
memory list and the `(collection, limit)` of each search performed. -/
def get_memory_context (search : String → String → Nat → List SearchResult)
    (question collection : String) (limit : Nat) :
    List MemEntry × List (String × Nat) :=
  let fst :=
    if collection == "essence" || collection == "both" then
      let n := if collection == "essence" then limit else limit / 2
      ((search "logos_essence" question n).map (memEntry "logos_essence"),
       [("logos_essence", n)])
    else ([], [])
  let snd :=
    if collection == "project" || collection == "both" then
      let n := if collection == "project" then limit else limit / 2
      ((search "project_knowledge" question n).map (memEntry "project_knowledge"),
       [("project_knowledge", n)])
    else ([], [])
  (sortDesc (fst.1 ++ snd.1), fst.2 ++ snd.2)

/-- Claim C5: with `collection = "both"` each of the two collections is
searched with `limit / 2` (integer division) and the merged list is sorted
by score in descending order; concretely, an essence hit scored 0.9 and a
project hit scored 0.95 merge with the 0.95 result first. -/
theorem get_memory_context_both_spec
    (search : String → String → Nat → List SearchResult)
    (question : String) (limit : Nat) :
    (get_memory_context search question "both" limit).2 =
      [("logos_essence", limit / 2), ("project_knowledge", limit / 2)] ∧
    List.Pairwise (fun a b : MemEntry => b.score ≤ a.score)
      (get_memory_context search question "both" limit).1 ∧
    ((get_memory_context
        (fun c _ _ =>
          if c == "logos_essence" then [⟨[("text", "e")], 9/10⟩]
          else if c == "project_knowledge" then [⟨[("text", "p")], 95/100⟩]
          else [])
        "q" "both" 4).1.map (fun m => m.score)) = [95/100, 9/10] := by
  refine ⟨rfl, sortDesc_sorted _, ?_⟩
  have hlt : (9 / 10 : ℚ) < 95 / 100 := by norm_num
  simp [get_memory_context, memEntry, sortDesc, insertDesc, hlt]

/-- Claim C10: with `collection = "both"` each search requests only
`limit / 2` results, so (whenever the index honours the requested limit)
the caller receives at most `2 * (limit / 2)` memories — at most
`limit - 1` for odd `limit`, and always the empty list for `limit = 1`. -/
theorem get_memory_context_both_halves
    (search : String → String → Nat → List SearchResult)
    (question : String) (limit : Nat)
    (hsearch : ∀ c q n, (search c q n).length ≤ n) :
    (get_memory_context search question "both" limit).1.length ≤ 2 * (limit / 2) ∧
    (limit % 2 = 1 →
      (get_memory_context search question "both" limit).1.length ≤ limit - 1) ∧
    (limit = 1 → (get_memory_context search question "both" limit).1 = []) := by
  have hlen : (get_memory_context search question "both" limit).1.length =
      (search "logos_essence" question (limit / 2)).length +
        (search "project_knowledge" question (limit / 2)).length := by
    simp [get_memory_context, length_sortDesc]
  have he := hsearch "logos_essence" question (limit / 2)
  have hp := hsearch "project_knowledge" question (limit / 2)
  refine ⟨by omega, by omega, ?_⟩
  intro h1
  subst h1
  have he0 : search "logos_essence" question 0 = [] :=
    List.eq_nil_of_length_eq_zero (Nat.le_zero.1 (hsearch "logos_essence" question 0))
  have hp0 : search "project_knowledge" question 0 = [] :=
    List.eq_nil_of_length_eq_zero (Nat.le_zero.1 (hsearch "project_knowledge" question 0))
  simp [get_memory_context, he0, hp0, sortDesc]

/-- Witness for C10: with an index that honours limits, `limit = 1` yields
no memories at all. -/
theorem get_memory_context_both_halves_witness :
    (get_memory_context (fun _ _ _ => ([] : List SearchResult)) "q" "both" 1).1 = [] :=
  (get_memory_context_both_halves (fun _ _ _ => ([] : List SearchResult)) "q" 1
    (fun _ _ n => by simp)).2.2 rfl

/-!
Embedding of `query_logos(question, limit)`, which searches the essence collection with
`min(limit, 3)` and the project collection with the full `limit`, then
bundles the constitution, one `(text, metadata, score)` entry per result
(metadata = payload without its `text` key) and the result counts.
-/

structure QLEntry where
  text : String
  metadata : Dict
  score : ℚ
  deriving DecidableEq, Inhabited

/-- One response entry built from a search result. -/
def toEntry (r : SearchResult) : QLEntry :=
  ⟨(dget r.payload "text").getD "",
   r.payload.filter (fun p => !(p.1 == "text")), r.score⟩

structure QLResponse where
  constitution : String
  personality_memories : List QLEntry
  project_knowledge : List QLEntry
  personality_results_count : Nat
  project_results_count : Nat
  total_results : Nat
  deriving DecidableEq

def query_logos (search : String → String → Nat → List SearchResult)
    (constitution question : String) (limit : Nat) :
    QLResponse × List (String × Nat) :=
  let essence_results := search "logos_essence" question (min limit 3)
  let project_results := search "project_knowledge" question limit
  (⟨constitution,
    essence_results.map toEntry,
    project_results.map toEntry,
    essence_results.length,
    project_results.length,
    essence_results.length + project_results.length⟩,
   [("logos_essence", min limit 3), ("project_knowledge", limit)])

theorem dget_filter_text_none (m : Dict) :
    dget (m.filter (fun p => !(p.1 == "text"))) "text" = none := by
  induction m with
  | nil => rfl
  | cons p rest ih =>
    by_cases h : p.1 = "text"
    · simp [List.filter_cons, h, ih]
    · have hb : (p.1 == "text") = false := by simp [h]
      simp [List.filter_cons, hb, dget, h, ih]

theorem dget_filter_text_ne (m : Dict) (k : String) (hk : ¬(k = "text")) :
    dget (m.filter (fun p => !(p.1 == "text"))) k = dget m k := by
  induction m with
  | nil => rfl
  | cons p rest ih =>
    by_cases h : p.1 = "text"
    · have hne : ¬(p.1 = k) := fun hc => hk (hc.symm.trans h)
      have hfb : (!(p.1 == "text")) = false := by simp [h]
      simp [List.filter_cons, hfb, dget, hne, ih]
    · have hfb : (!(p.1 == "text")) = true := by simp [h]
      by_cases hpk : p.1 = k
      · simp [List.filter_cons, hfb, dget, hpk, hk]
      · simp [List.filter_cons, hfb, dget, hpk, ih]

theorem getD_map_toEntry (l : List SearchResult) (i : Nat) (h : i < l.length) :
    (l.map toEntry).getD i default = toEntry (l.getD i default) := by
  induction l generalizing i with
  | nil => simp at h
  | cons r rest ih =>
    cases i with
    | zero => simp [List.getD]
    | succ j =>
      have hj : j < rest.length := by simpa using h
      simpa [List.getD] using ih j hj

/-- Claim C6: `query_logos` searches the essence collection with
`min(limit, 3)` and the project collection with the full `limit`; the
returned bundle carries the constitution, one `(text, metadata, score)`
entry per search result where the metadata is the payload without its
`text` key, and counts equal to the respective numbers of results. -/
theorem query_logos_spec (search : String → String → Nat → List SearchResult)
    (constitution question : String) (limit : Nat) :
    (query_logos search constitution question limit).2 =
      [("logos_essence", min limit 3), ("project_knowledge", limit)] ∧
    (query_logos search constitution question limit).1.constitution = constitution ∧
    (query_logos search constitution question limit).1.personality_results_count =
      (search "logos_essence" question (min limit 3)).length ∧
    (query_logos search constitution question limit).1.project_results_count =
      (search "project_knowledge" question limit).length ∧
    (query_logos search constitution question limit).1.total_results =
      (search "logos_essence" question (min limit 3)).length +
        (search "project_knowledge" question limit).length ∧
    (query_logos search constitution question limit).1.personality_memories.length =
      (search "logos_essence" question (min limit 3)).length ∧
    (query_logos search constitution question limit).1.project_knowledge.length =
      (search "project_knowledge" question limit).length ∧
    (∀ i : Nat, i < (search "logos_essence" question (min limit 3)).length →
      ((query_logos search constitution question limit).1.personality_memories.getD i
          default).text =
        (dget ((search "logos_essence" question (min limit 3)).getD i default).payload
          "text").getD "" ∧
      ((query_logos search constitution question limit).1.personality_memories.getD i
          default).score =
        ((search "logos_essence" question (min limit 3)).getD i default).score ∧
      dget ((query_logos search constitution question limit).1.personality_memories.getD i
          default).metadata "text" = none ∧
      (∀ k : String, ¬(k = "text") →
        dget ((query_logos search constitution question limit).1.personality_memories.getD i
            default).metadata k =
          dget ((search "logos_essence" question (min limit 3)).getD i default).payload k)) ∧
    (∀ i : Nat, i < (search "project_knowledge" question limit).length →
      ((query_logos search constitution question limit).1.project_knowledge.getD i
          default).text =
        (dget ((search "project_knowledge" question limit).getD i default).payload
          "text").getD "" ∧
      dget ((query_logos search constitution question limit).1.project_knowledge.getD i
          default).metadata "text" = none) := by
  refine ⟨rfl, rfl, by simp [query_logos], by simp [query_logos],
    by simp [query_logos], by simp [query_logos], by simp [query_logos], ?_, ?_⟩
  · intro i hi
    have hmap : (query_logos search constitution question limit).1.personality_memories =
        (search "logos_essence" question (min limit 3)).map toEntry := rfl
    rw [hmap, getD_map_toEntry _ i hi]
    exact ⟨rfl, rfl, dget_filter_text_none _,
      fun k hk => dget_filter_text_ne _ k hk⟩
  · intro i hi
    have hmap : (query_logos search constitution question limit).1.project_knowledge =
        (search "project_knowledge" question limit).map toEntry := rfl
    rw [hmap, getD_map_toEntry _ i hi]
    exact ⟨rfl, dget_filter_text_none _⟩

/-- Witness for C6: at a concrete oracle the first personality entry keeps
the non-text metadata and drops the `text` key. -/
theorem query_logos_spec_witness :
    dget ((query_logos
        (fun c _ _ => if c == "logos_essence"
          then [⟨[("text", "t1"), ("a", "1")], 1⟩] else [⟨[("text", "t2")], 1⟩])
        "const" "q" 5).1.personality_memories.getD 0 default).metadata "text" = none ∧
    dget ((query_logos
        (fun c _ _ => if c == "logos_essence"
          then [⟨[("text", "t1"), ("a", "1")], 1⟩] else [⟨[("text", "t2")], 1⟩])
        "const" "q" 5).1.personality_memories.getD 0 default).metadata "a" = some "1" := by
  refine ⟨((query_logos_spec
      (fun c _ _ => if c == "logos_essence"
        then [⟨[("text", "t1"), ("a", "1")], 1⟩] else [⟨[("text", "t2")], 1⟩])
      "const" "q" 5).2.2.2.2.2.2.2.1 0 (by simp)).2.2.1, ?_⟩
  refine (((query_logos_spec
      (fun c _ _ => if c == "logos_essence"
        then [⟨[("text", "t1"), ("a", "1")], 1⟩] else [⟨[("text", "t2")], 1⟩])
      "const" "q" 5).2.2.2.2.2.2.2.1 0 (by simp)).2.2.2 "a" (by simp)).trans ?_
  simp [dget]

/-!
Embedding of `LogosVectorStore._ensure_collections` (src/src/engine/vector_store.py).
The external index schema is modelled by the list of existing collection
names.  One call reads the schema once and creates, in order, every
required collection not in that snapshot; it returns the new schema and
the list of creation calls made.
-/

def COLLECTIONS : List String := ["logos_essence", "project_knowledge", "canon"]

def ensure_collections (existing : List String) : List String × List String :=
  let toCreate := COLLECTIONS.filter (fun n => !(decide (n ∈ existing)))
  (existing ++ toCreate, toCreate)

/-- Iterate `N` successive `_ensure_collections` calls, starting from `existing`. -/
def ensureN : Nat → List String → List String
  | 0, s => s
  | n + 1, s => (ensure_collections (ensureN n s)).1

theorem ensure_mem (existing : List String) (c : String) (hc : c ∈ COLLECTIONS) :
    c ∈ (ensure_collections existing).1 := by
  by_cases hex : c ∈ existing
  · exact List.mem_append_left _ hex
  · refine List.mem_append_right _ ?_
    simp [ensure_collections]
    exact ⟨hc, hex⟩

theorem ensure_stable (existing : List String) :
    ensure_collections ((ensure_collections existing).1) =
      ((ensure_collections existing).1, []) := by
  have htc : COLLECTIONS.filter
      (fun n => !(decide (n ∈ (ensure_collections existing).1))) = [] := by
    rw [List.filter_eq_nil_iff]
    intro a ha
    simp [ensure_mem existing a ha]
  simp [ensure_collections] at htc ⊢
  exact htc

/-- Claim C8: one `_ensure_collections` call leaves the schema containing
all three required collections, never attempts to create a collection that
already exists, a second call creates nothing, and `N ≥ 1` calls produce
the same final schema as one call. -/
theorem ensure_collections_spec (existing : List String) :
    (∀ c, c ∈ COLLECTIONS → c ∈ (ensure_collections existing).1) ∧
    (∀ c, c ∈ (ensure_collections existing).2 → c ∉ existing) ∧
    (ensure_collections ((ensure_collections existing).1)).2 = [] ∧
    (∀ N : Nat, 1 ≤ N → ensureN N existing = (ensure_collections existing).1) := by
  refine ⟨ensure_mem existing, ?_, ?_, ?_⟩
  · intro c hc
    simp [ensure_collections] at hc
    exact hc.2
  · rw [ensure_stable existing]
  · intro N
    induction N with
    | zero => intro h; omega
    | succ n ih =>
      intro _
      cases hn : n with
      | zero => rfl
      | succ m =>
        have := ih (by omega)
        rw [hn] at this
        show (ensure_collections (ensureN (m + 1) existing)).1 = _
        rw [this, ensure_stable existing]

/-- Witness for C8: starting from a schema holding an unrelated collection,
one call adds all three, and three calls equal one. -/
theorem ensure_collections_spec_witness :
    "canon" ∈ (ensure_collections ["extra"]).1 ∧
    ensureN 3 ["extra"] = (ensure_collections ["extra"]).1 :=
  ⟨(ensure_collections_spec ["extra"]).1 "canon" (by decide),
   (ensure_collections_spec ["extra"]).2.2.2 3 (by decide)⟩
